import Mathlib

/-!
Shallow embedding of the nadfaucet server core: the crypto primitives
(src/lib/crypto-utils.js, shipped as an unnamed source part), the block
processor's three-pool reward calculation (BlockProcessor.finalizeBlock),
the block tick (BlockProcessor.processBlock), and the HTTP handlers for
share submission and withdrawal (src/server/index.js).  JavaScript numbers
are modelled as Nat/Int (all reward arithmetic is integer-valued in range)
and as ℚ where a request field may carry a non-integer value; JS
`Math.floor` on a possibly-negative quotient is `Int.fdiv`; the database
rows are lists.  Parts of DatabaseManager (src/lib/database.js) are not in
the source tree; those operations are modelled from the spec and marked so.
-/

abbrev Addr := String

/-! ## Crypto primitives (crypto-utils.js) -/

/-- Hex-digit value of a character, as `Number.parseInt(char, 16)` computes it
on a single character: a value for the 22 hex-digit characters, none otherwise. -/
def hexDigitVal? (c : Char) : Option Nat :=
  match c.toNat with
  | 48 => some 0
  | 49 => some 1
  | 50 => some 2
  | 51 => some 3
  | 52 => some 4
  | 53 => some 5
  | 54 => some 6
  | 55 => some 7
  | 56 => some 8
  | 57 => some 9
  | 97 => some 10
  | 98 => some 11
  | 99 => some 12
  | 100 => some 13
  | 101 => some 14
  | 102 => some 15
  | 65 => some 10
  | 66 => some 11
  | 67 => some 12
  | 68 => some 13
  | 69 => some 14
  | 70 => some 15
  | _ => none

/-- Loop body of `countLeadingZeroBits` (crypto-utils.js): 4 bits per leading
zero digit; for the first digit with a nonzero value the three cascaded `if`s
add 1 for each of `value < 8`, `value < 4`, `value < 2`; a non-digit character
(`parseInt` returns NaN, all comparisons false) adds nothing and stops. -/
def countLZBAux : List Char → Nat
  | [] => 0
  | c :: rest =>
    match hexDigitVal? c with
    | none => 0
    | some v =>
      if v = 0 then 4 + countLZBAux rest
      else (if v < 8 then 1 else 0) + (if v < 4 then 1 else 0) + (if v < 2 then 1 else 0)

/-- Function `countLeadingZeroBits` from crypto-utils.js. -/
def countLeadingZeroBits (s : String) : Nat :=
  countLZBAux s.data

/-- The canonical PoW input built by the server's `computePoWHash`:
`address.toLowerCase()`, the decimal block number, the seed hex and the
nonce, concatenated with no separators. -/
def cuCanonicalInput (address : String) (blockNumber : Nat) (seedHex nonce : String) : String :=
  address.toLower ++ toString blockNumber ++ seedHex ++ nonce

/-- Function `computePoWHash` from crypto-utils.js, with SHA-256 over the UTF-8 bytes of
the canonical input abstracted as the parameter `sha` (returning the lowercase
hex digest). Returns the digest and its leading-zero-bit count. -/
def cuComputePoWHash (sha : ByteArray → String) (address : String) (blockNumber : Nat)
    (seedHex nonce : String) : String × Nat :=
  let hash := sha (String.toUTF8 (cuCanonicalInput address blockNumber seedHex nonce))
  (hash, countLeadingZeroBits hash)

/-- Whether a character is a hex digit, as the character class `[0-9a-fA-F]`. -/
def isHexChar (c : Char) : Bool :=
  (hexDigitVal? c).isSome

/-- Function `isValidAddress` from crypto-utils.js: the regex `^0x[a-fA-F0-9]{40}$`. -/
def isValidAddress (s : String) : Bool :=
  match s.data with
  | '0' :: 'x' :: rest => rest.length = 40 && rest.all isHexChar
  | _ => false

/-- The cumulative scan inside `selectWeightedRandom`: index of the first
weight whose cumulative sum exceeds the random value. -/
def swrScan : List Nat → Nat → Nat → Option Nat
  | [], _, _ => none
  | w :: t, r, cum =>
    if r < cum + w then some 0 else (swrScan t r (cum + w)).map (· + 1)

/-- Function `selectWeightedRandom` from crypto-utils.js, with the secure random draw
`crypto.randomInt(totalWeight)` passed in as `r`.  Returns -1 when the total
weight is zero; otherwise the scanned index, falling back to the last index. -/
def selectWeightedRandom (weights : List Nat) (r : Nat) : Int :=
  if weights.sum = 0 then -1
  else
    match swrScan weights r 0 with
    | some i => (i : Int)
    | none => (weights.length : Int) - 1

/-! ## Mining worker copies (public/mining-worker.js)

The browser worker carries its own textual copy of the counting and hashing
routines; they are embedded separately so their agreement with the server's
copies is a theorem, not a definition. -/

/-- Loop body of the worker's `countLeadingZeroBits`. -/
def mwCountLZBAux : List Char → Nat
  | [] => 0
  | c :: rest =>
    match hexDigitVal? c with
    | none => 0
    | some v =>
      if v = 0 then 4 + mwCountLZBAux rest
      else (if v < 8 then 1 else 0) + (if v < 4 then 1 else 0) + (if v < 2 then 1 else 0)

/-- Function `countLeadingZeroBits` from mining-worker.js. -/
def mwCountLeadingZeroBits (s : String) : Nat :=
  mwCountLZBAux s.data

/-- The canonical PoW input built by the worker's `computePoWHash`. -/
def mwCanonicalInput (address : String) (blockNumber : Nat) (seedHex nonce : String) : String :=
  address.toLower ++ toString blockNumber ++ seedHex ++ nonce

/-- Function `computePoWHash` from mining-worker.js: TextEncoder (UTF-8) then
`crypto.subtle.digest("SHA-256", ...)`, abstracted as `sha`; returns the hex
digest, its leading-zero-bit count and the nonce. -/
def mwComputePoWHash (sha : ByteArray → String) (address : String) (blockNumber : Nat)
    (seedHex nonce : String) : String × Nat × String :=
  let hashHex := sha (String.toUTF8 (mwCanonicalInput address blockNumber seedHex nonce))
  (hashHex, mwCountLeadingZeroBits hashHex, nonce)

/-! ## Three-pool reward calculation (BlockProcessor.finalizeBlock)

`sharesByAddress` is a JS Map built by counting shares; it is embedded as an
association list in iteration (insertion) order with pairwise-distinct keys.
The Pool B draw `crypto.randomInt(totalWeight)` is passed in as `r`. -/

/-- Value `totalShares`: sum of all raw share counts. -/
def totalSharesOf (entries : List (Addr × Nat)) : Nat :=
  (entries.map Prod.snd).sum

/-- The Pool B winner: `addresses[selectWeightedRandom(weights)]`,
`null` (none) when the selection returns -1. -/
def poolBWinner (entries : List (Addr × Nat)) (r : Nat) : Option Addr :=
  let wi := selectWeightedRandom (entries.map Prod.snd) r
  if wi < 0 then none
  else some ((entries.map Prod.fst).getD wi.toNat "")

/-- The per-address adjusted share: a non-winner keeps its raw count; the
winner gets `Math.floor((shareCount - penalty) / 2)` clamped at zero, with
`penalty = Math.min(totalShares - shareCount, Math.floor(totalShares / 2))`. -/
def adjustedOf (w : Option Addr) (a : Addr) (shareCount totalShares : Nat) : Nat :=
  if w = some a then
    let penalty : Int := min ((totalShares : Int) - (shareCount : Int)) ((totalShares : Int) / 2)
    let adj : Int := ((shareCount : Int) - penalty).fdiv 2
    (if adj < 0 then 0 else adj).toNat
  else shareCount

/-- The `adjustedShares` map: every entry mapped through `adjustedOf`,
entries with adjusted share 0 dropped. -/
def adjustedShares (entries : List (Addr × Nat)) (w : Option Addr) : List (Addr × Nat) :=
  (entries.map (fun p => (p.1, adjustedOf w p.1 p.2 (totalSharesOf entries)))).filter
    (fun p => 0 < p.2)

/-- Value `totalAdjustedShares`. -/
def totalAdjusted (entries : List (Addr × Nat)) (w : Option Addr) : Nat :=
  ((adjustedShares entries w).map Prod.snd).sum

/-- The Pool A payouts: each adjusted entry receives
`Math.floor((shareCount / totalAdjustedShares) * poolAReward)`, embedded as
the exact integer floor `adj * A / totalAdjusted`. -/
def poolARewards (entries : List (Addr × Nat)) (w : Option Addr) (A : Nat) :
    List (Addr × Nat) :=
  (adjustedShares entries w).map (fun p => (p.1, p.2 * A / totalAdjusted entries w))

/-- Pool A contribution of one address (0 when it is not in the adjusted map). -/
def poolAPart (entries : List (Addr × Nat)) (w : Option Addr) (A : Nat) (a : Addr) : Nat :=
  match (poolARewards entries w A).lookup a with
  | some v => v
  | none => 0

/-- The Pool C candidate addresses: `addresses.filter(addr => addr !== poolBWinner)`. -/
def poolCCandidates (entries : List (Addr × Nat)) (w : Option Addr) : List Addr :=
  (entries.map Prod.fst).filter (fun a => ¬ w = some a)

/-- The running reward of an address after Pools A and B
(`rewards.get(addr) || 0` at the time Pool C runs). -/
def runningReward (entries : List (Addr × Nat)) (w : Option Addr) (A B : Nat) (a : Addr) : Nat :=
  (if w = some a then B else 0) + poolAPart entries w A a

/-- List `workerRewards` after `sort((a, b) => a.reward - b.reward)`: the candidates
with their running rewards, sorted ascending by reward.  JS `Array.prototype.sort`
is a stable sort; insertion sort with `≤` on the rewards is the same stable
ascending sort, so the resulting lists are equal element for element. -/
def sortedWorkers (entries : List (Addr × Nat)) (w : Option Addr) (A B : Nat) :
    List (Addr × Nat) :=
  ((poolCCandidates entries w).map (fun a => (a, runningReward entries w A B a))).insertionSort
    (fun x y => x.2 ≤ y.2)

/-- The prefix-size loop: `m = numC`; for `i = 1 .. numC-1`, the first `i` with
`workerRewards[i-1].reward + Math.ceil(poolCReward / i) < workerRewards[i].reward`
sets `m = i` and breaks.  `rs` is the (sorted) reward list, `i` the loop index,
`numC` the candidate count. -/
def chooseMAux : List Nat → Nat → Nat → Nat → Nat
  | r1 :: r2 :: rest, C, i, numC =>
    if r1 + (C + i - 1) / i < r2 then i
    else chooseMAux (r2 :: rest) C (i + 1) numC
  | _, _, _, numC => numC

/-- The chosen prefix size `m` for a sorted reward list. -/
def chooseM (rs : List Nat) (C : Nat) : Nat :=
  chooseMAux rs C 1 rs.length

/-- The Pool C amounts: recipient `i` (0-based, `i < m`) receives
`Math.floor(poolCReward / m)` plus one while the remainder
`poolCReward % m` lasts, i.e. one extra for `i < C % m`. -/
def poolCAmounts (m C : Nat) : List Nat :=
  (List.range m).map (fun i => C / m + if i < C % m then 1 else 0)

/-- The Pool C grants computed from a (sorted) worker list: the first `m`
workers paired with their amounts. -/
def poolCFromWorkers (workers : List (Addr × Nat)) (C : Nat) : List (Addr × Nat) :=
  let m := chooseM (workers.map Prod.snd) C
  ((workers.take m).map Prod.fst).zip (poolCAmounts m C)

/-- The Pool C grants of a finalized block. -/
def poolCGrantsOf (entries : List (Addr × Nat)) (w : Option Addr) (A B C : Nat) :
    List (Addr × Nat) :=
  poolCFromWorkers (sortedWorkers entries w A B) C

/-- Pool C contribution of one address. -/
def poolCPart (entries : List (Addr × Nat)) (w : Option Addr) (A B C : Nat) (a : Addr) : Nat :=
  match (poolCGrantsOf entries w A B C).lookup a with
  | some v => v
  | none => 0

/-- The total reward credited to one address by `finalizeBlock`:
its Pool B, Pool A and Pool C contributions. -/
def rewardOf (entries : List (Addr × Nat)) (r A B C : Nat) (a : Addr) : Nat :=
  (if poolBWinner entries r = some a then B else 0)
    + poolAPart entries (poolBWinner entries r) A a
    + poolCPart entries (poolBWinner entries r) A B C a

/-- The grand total distributed by the three pools for one block. -/
def totalDistributed (entries : List (Addr × Nat)) (r A B C : Nat) : Nat :=
  ((entries.map Prod.fst).map (rewardOf entries r A B C)).sum

/-! ## Block engine tick (BlockProcessor.processBlock) -/

/-- The engine's mutable state: current block number, seed, block start time,
and the `isProcessing` guard. -/
structure Engine where
  currentBlockNumber : Nat
  currentSeedHex : String
  blockStartTime : Nat
  isProcessing : Bool
deriving DecidableEq

/-- Outcome of one tick: dropped because a closure was in progress, advanced
after a successful finalization of the named block, or failed because
`finalizeBlock` raised on the named block. -/
inductive TickResult where
  | skipped
  | advanced (processedBlock : Nat)
  | failed (attemptedBlock : Nat)
deriving DecidableEq

/-- Method `processBlock`: if already processing, skip.  Otherwise finalize the
current block; whether finalization raises is the parameter `finalizeRaises`.
On success the block number is incremented, the seed replaced by `freshSeed`
and the start time reset to `now`; on an error the `catch` only logs, so
block number, seed and start time are left untouched.  In both cases the
`finally` clears `isProcessing` and reschedules (the `Bool` in the result). -/
def processBlock (e : Engine) (finalizeRaises : Bool) (freshSeed : String) (now : Nat) :
    (Engine × Bool) × TickResult :=
  if e.isProcessing then ((e, false), .skipped)
  else if finalizeRaises then
    (({ e with isProcessing := false }, true), .failed e.currentBlockNumber)
  else
    (({ currentBlockNumber := e.currentBlockNumber + 1, currentSeedHex := freshSeed,
        blockStartTime := now, isProcessing := false }, true), .advanced e.currentBlockNumber)

/-! ## Share table and the /submit-proof handler (src/server/index.js, first
version: shares bound to the server's current block) -/

/-- A row of the `shares` table. -/
structure ShareRow where
  block : Nat
  address : String
  nonce : String
  hashHex : String
deriving DecidableEq

/-- The UNIQUE(block_number, address, nonce) key of a share row
(scripts/01-setup-database.js). -/
def shareKey (s : ShareRow) : Nat × String × String :=
  (s.block, s.address, s.nonce)

/-- The shares table satisfies its uniqueness constraint: at most one row per
(block, address, nonce). -/
def uniqueTriples (rows : List ShareRow) : Prop :=
  (rows.map shareKey).Nodup

/-- Modelled from the spec: `DatabaseManager.getShareCountForAddress`
(src/lib/database.js is not in the source tree) — `share_count(block, addr)`,
the number of share rows of `addr` in block `blk`. -/
def getShareCountForAddress (rows : List ShareRow) (blk : Nat) (addr : String) : Nat :=
  (rows.filter (fun s => decide (s.block = blk ∧ s.address = addr))).length

/-- Modelled from the spec: `DatabaseManager.insertShare` (src/lib/database.js
is not in the source tree) — `insert_share` returns false (here `none`) on a
UNIQUE(block_number, address, nonce) violation and appends the row otherwise. -/
def insertShare (rows : List ShareRow) (blk : Nat) (addr nonce hash : String) :
    Option (List ShareRow) :=
  if rows.any (fun s => decide (s.block = blk ∧ s.address = addr ∧ s.nonce = nonce)) then none
  else some (rows ++ [⟨blk, addr, nonce, hash⟩])

/-- The possible answers of POST /submit-proof, tagged by their error strings:
400 Missing required fields, 400 Invalid Ethereum address format,
429 Maximum shares per block exceeded, 400 Insufficient proof-of-work,
409 Duplicate share, and the 200 acceptance payload. -/
inductive SubmitResult where
  | missingFields
  | invalidAddress
  | quotaExceeded
  | insufficientPoW (required provided : Nat)
  | duplicateShare
  | accepted (blockNumber leadingZeroBits : Nat) (hash : String)
deriving DecidableEq

/-- The POST /submit-proof handler (first version in src/server/index.js):
presence check (JS string truthiness: non-empty), address format, per-block
per-address quota against `MAX_SHARES_PB`, proof-of-work at the server's
current block and seed against `DIFFICULTY_BITS`, then insert with the 409
duplicate answer.  Returns the response and the shares table afterwards. -/
def submitProof (DIFFICULTY_BITS MAX_SHARES_PB : Nat) (sha : ByteArray → String)
    (rows : List ShareRow) (currentBlock : Nat) (currentSeed : String)
    (address nonce : String) : SubmitResult × List ShareRow :=
  if address = "" ∨ nonce = "" then (.missingFields, rows)
  else if ¬ isValidAddress address then (.invalidAddress, rows)
  else if MAX_SHARES_PB ≤ getShareCountForAddress rows currentBlock address then
    (.quotaExceeded, rows)
  else if (cuComputePoWHash sha address currentBlock currentSeed nonce).2 < DIFFICULTY_BITS then
    (.insufficientPoW DIFFICULTY_BITS
      (cuComputePoWHash sha address currentBlock currentSeed nonce).2, rows)
  else
    match insertShare rows currentBlock address nonce
        (cuComputePoWHash sha address currentBlock currentSeed nonce).1 with
    | none => (.duplicateShare, rows)
    | some rows' =>
      (.accepted currentBlock (cuComputePoWHash sha address currentBlock currentSeed nonce).2
        (cuComputePoWHash sha address currentBlock currentSeed nonce).1, rows')

/-! ## JSON values and the second /submit-proof validation chain
(second version in src/server/index.js, shares bound to a client-declared
block number) -/

/-- A JSON scalar as the handler sees a request field. -/
inductive JVal where
  | str (s : String)
  | num (q : ℚ)
  | boolean (b : Bool)
  | null
deriving DecidableEq

/-- JS truthiness of a JSON scalar: the empty string, 0, false and null are
falsy. -/
def truthy : JVal → Bool
  | .str s => decide (¬ s = "")
  | .num q => decide (¬ q = 0)
  | .boolean b => b
  | .null => false

/-- Validator `isValidAddress` applied to a request field: the regex is anchored on
`0x`, so the string coercion of a number, boolean or null never matches. -/
def isValidAddressJ : JVal → Bool
  | .str s => isValidAddress s
  | _ => false

/-- The validation errors of the second /submit-proof version, in check order. -/
inductive V2Err where
  | missingFields
  | invalidAddressFormat
  | invalidBlockNumber
  | invalidNonceFormat
deriving DecidableEq

/-- The nonce-format condition of the second /submit-proof version:
`typeof nonce !== "string" || nonce.length === 0`. -/
def nonceFormatBad : JVal → Bool
  | .str s => decide (s = "")
  | _ => true

/-- The validation chain of the second /submit-proof version
(src/server/index.js): presence of address, blockNumber and nonce; address
format; `blockNumber !== currentBlock` (strict equality, so only the number
equal to the server's current block passes); then
`typeof nonce !== "string" || nonce.length === 0` → 400 Invalid nonce format.
`none` means all four validations passed. -/
def validateSubmitV2 (address blockNumber nonce : JVal) (currentBlock : Nat) : Option V2Err :=
  if ¬ truthy address ∨ ¬ truthy blockNumber ∨ ¬ truthy nonce then some .missingFields
  else if ¬ isValidAddressJ address then some .invalidAddressFormat
  else if ¬ blockNumber = .num (currentBlock : ℚ) then some .invalidBlockNumber
  else if nonceFormatBad nonce then some .invalidNonceFormat
  else none

/-! ## Balances, payouts and the /withdraw-request handler -/

/-- A row of the `payouts` table; `amountMicro` is the amount-to-send column
(`create_payout(addr, amount_net, fee)` in the spec's storage interface). -/
structure PayoutRow where
  id : Nat
  address : String
  amountMicro : ℚ
  feeMicro : ℚ
  status : String
deriving DecidableEq

/-- The storage state the withdraw handler touches: the balance ledger, the
payout queue and the next payout id. -/
structure WState where
  balances : String → ℚ
  payouts : List PayoutRow
  nextId : Nat

/-- Modelled from the spec: `DatabaseManager.getBalance` (src/lib/database.js
is not in the source tree) — the address's balance in micro-tokens. -/
def getBalance (st : WState) (addr : String) : ℚ :=
  st.balances addr

/-- Modelled from the spec: `DatabaseManager.deductBalance` (src/lib/database.js
is not in the source tree) — false (here `none`) if the debit would go
negative, otherwise the state with the balance decreased. -/
def deductBalance (st : WState) (addr : String) (amount : ℚ) : Option WState :=
  if getBalance st addr < amount then none
  else some { st with
    balances := fun a => if a = addr then st.balances a - amount else st.balances a }

/-- Modelled from the spec: `DatabaseManager.createPayout` (src/lib/database.js
is not in the source tree) — `create_payout(addr, amount_net, fee) -> id`
appends a pending payout row holding the given amount and fee. -/
def createPayout (st : WState) (addr : String) (amountNet fee : ℚ) : Nat × WState :=
  (st.nextId,
   { st with
     payouts := st.payouts ++ [⟨st.nextId, addr, amountNet, fee, "pending"⟩],
     nextId := st.nextId + 1 })

/-- The possible answers of POST /withdraw-request, tagged by their error
strings: 400 Valid address required, 400 Valid amountMicro required,
400 Amount must be greater than withdrawal fee, 400 Insufficient balance,
500 Failed to deduct balance, and the 200 queued payload. -/
inductive WithdrawResult where
  | badAddress
  | badAmount
  | amountNotAboveFee
  | insufficientBalance (balance requested : ℚ)
  | deductFailed
  | queued (payoutId : Nat) (netAmount fee : ℚ)
deriving DecidableEq

/-- The POST /withdraw-request handler (src/server/index.js; both versions are
identical here).  The body's `amountMicro` is a JSON number, modelled as ℚ:
the validation is `!amountMicro || typeof amountMicro !== "number" ||
amountMicro <= 0` — falsy (zero) or non-positive; there is no integrality
check.  Then `amountMicro <= WITHDRAW_FEE_MICRO`, the balance check, the
debit, and `createPayout(address, amountMicro, WITHDRAW_FEE_MICRO)` — note
the handler passes the gross `amountMicro`, while the response reports
`netAmount = amountMicro - WITHDRAW_FEE_MICRO`. -/
def withdrawRequest (FEE : ℚ) (st : WState) (address : String) (amountMicro : ℚ) :
    WithdrawResult × WState :=
  if address = "" ∨ ¬ isValidAddress address then (.badAddress, st)
  else if amountMicro = 0 ∨ amountMicro ≤ 0 then (.badAmount, st)
  else if amountMicro ≤ FEE then (.amountNotAboveFee, st)
  else if getBalance st address < amountMicro then
    (.insufficientBalance (getBalance st address) amountMicro, st)
  else
    match deductBalance st address amountMicro with
    | none => (.deductFailed, st)
    | some st₁ =>
      let p := createPayout st₁ address amountMicro FEE
      (.queued p.1 (amountMicro - FEE) FEE, p.2)

/-! ## Concrete fixtures used by witnesses and counterexamples -/

/-- A well-formed test address: `0x` followed by 40 hex digits. -/
def addrY : String := "0xaaaaaaaaaaaaaaaaaaaaaaaaaaaaaaaaaaaaaaaa"

/-- A 257-character nonce. -/
def longNonce : String := String.mk (List.replicate 257 'a')

/-- A withdraw-state fixture: every balance 3 000 000 000 micro, no payouts. -/
def wst0 : WState := ⟨fun _ => 3000000000, [], 0⟩

/-! ## Specification-side definitions (written from the spec's words, for
refinement comparisons) -/

/-- The four bits of a hex-digit value, most significant first. -/
def hexBits (v : Nat) : List Bool :=
  [decide (v / 8 % 2 = 1), decide (v / 4 % 2 = 1), decide (v / 2 % 2 = 1), decide (v % 2 = 1)]

/-- A hex digest read as a big-endian bit string. -/
def digestBits (s : String) : List Bool :=
  (s.data.map (fun c => hexBits ((hexDigitVal? c).getD 0))).flatten

/-- The number of leading zero bits of a digest read as a big-endian bit
string: the length of the longest all-false prefix. -/
def specLeadingZeroBits (s : String) : Nat :=
  (digestBits s |>.takeWhile (fun b => ! b)).length

/-! ## Helper lemmas -/

theorem sum_map_add_distrib {α : Type} (l : List α) (f g : α → Nat) :
    (l.map (fun a => f a + g a)).sum = (l.map f).sum + (l.map g).sum := by
  induction l with
  | nil => simp
  | cons a t ih => simp [ih]; omega

theorem sum_map_ite_eq_of_nodup (l : List Addr) (x : Addr) (B : Nat) (h : l.Nodup) :
    (l.map (fun a => if x = a then B else 0)).sum = if x ∈ l then B else 0 := by
  induction l with
  | nil => simp
  | cons a t ih =>
    simp only [List.nodup_cons] at h
    obtain ⟨hat, ht⟩ := h
    by_cases hx : x = a
    · subst hx
      simp [ih ht, hat]
    · simp [hx, ih ht, List.mem_cons]

theorem lookup_eq_none_of_not_mem_keys {β : Type} (l : List (Addr × β)) (a : Addr)
    (h : a ∉ l.map Prod.fst) : l.lookup a = none := by
  induction l with
  | nil => rfl
  | cons p t ih =>
    simp only [List.map_cons, List.mem_cons, not_or] at h
    obtain ⟨k, v⟩ := p
    simp [List.lookup, ih h.2, beq_false_of_ne h.1]

theorem sum_map_lookup (addrs : List Addr) (l : List (Addr × Nat)) (hA : addrs.Nodup)
    (hk : (l.map Prod.fst).Nodup) (hsub : ∀ p ∈ l, p.1 ∈ addrs) :
    (addrs.map (fun a => match l.lookup a with | some v => v | none => 0)).sum
      = (l.map Prod.snd).sum := by
  induction l with
  | nil => simp
  | cons p t ih =>
    obtain ⟨k, v⟩ := p
    simp only [List.map_cons, List.nodup_cons] at hk
    obtain ⟨hknot, hkt⟩ := hk
    have hkaddr : k ∈ addrs := hsub (k, v) (List.mem_cons_self _ _)
    have hsubt : ∀ q ∈ t, q.1 ∈ addrs := fun q hq => hsub q (List.mem_cons_of_mem _ hq)
    have htnone : t.lookup k = none := lookup_eq_none_of_not_mem_keys t k hknot
    have hpt : (addrs.map (fun a => match ((k, v) :: t).lookup a with | some w => w | none => 0))
        = addrs.map (fun a =>
            (match t.lookup a with | some w => w | none => 0) + (if k = a then v else 0)) := by
      apply List.map_congr_left
      intro a _
      by_cases ha : a = k
      · subst ha
        simp [List.lookup, htnone]
      · have hbeq : (a == k) = false := beq_false_of_ne ha
        simp [List.lookup, hbeq, Ne.symm ha]
    rw [hpt, sum_map_add_distrib, ih hkt hsubt,
        sum_map_ite_eq_of_nodup addrs k v hA, if_pos hkaddr]
    simp [add_comm]

theorem sum_map_mul_right_nat (l : List Nat) (f : Nat → Nat) (b : Nat) :
    (l.map (fun x => f x * b)).sum = (l.map f).sum * b := by
  induction l with
  | nil => simp
  | cons a t ih => simp [ih, Nat.add_mul]

theorem sum_div_le (vals : List Nat) (A : Nat) :
    (vals.map (fun v => v * A / vals.sum)).sum ≤ A := by
  rcases Nat.eq_zero_or_pos vals.sum with h | h
  · have hz : ∀ v ∈ vals, v = 0 := by
      intro v hv
      exact List.sum_eq_zero_iff.mp h v hv
    have hmap : (vals.map (fun v => v * A / vals.sum)) = vals.map (fun _ => 0) :=
      List.map_congr_left (fun v hv => by rw [hz v hv]; simp)
    rw [hmap]
    simp
  · have key : (vals.map (fun v => v * A / vals.sum)).sum * vals.sum ≤ A * vals.sum := by
      rw [← sum_map_mul_right_nat]
      have hle : (vals.map (fun v => v * A / vals.sum * vals.sum)).sum
          ≤ (vals.map (fun v => v * A)).sum :=
        List.sum_le_sum (fun v _ => Nat.div_mul_le_self (v * A) vals.sum)
      refine hle.trans ?_
      have : (vals.map (fun v => v * A)).sum = vals.sum * A := by
        have := sum_map_mul_right_nat vals (fun x => x) A
        simpa using this
      rw [this, Nat.mul_comm]
    exact Nat.le_of_mul_le_mul_right key h

theorem ite_neg_eq_max (x : Int) : (if x < 0 then 0 else x) = max 0 x := by
  rw [max_def]
  split_ifs <;> omega

theorem chooseMAux_le (C : Nat) :
    ∀ (l : List Nat) (i n : Nat), i + l.length = n + 1 → chooseMAux l C i n ≤ n := by
  intro l
  induction l with
  | nil => intro i n h; simp [chooseMAux]
  | cons r1 t ih =>
    intro i n h
    cases t with
    | nil => simp [chooseMAux]
    | cons r2 rest =>
      simp only [chooseMAux]
      split
      · simp only [List.length_cons] at h
        omega
      · apply ih
        simp only [List.length_cons] at h ⊢
        omega

theorem chooseMAux_pos (C : Nat) :
    ∀ (l : List Nat) (i n : Nat), 1 ≤ i → 1 ≤ n → 1 ≤ chooseMAux l C i n := by
  intro l
  induction l with
  | nil => intro i n _ hn; simpa [chooseMAux] using hn
  | cons r1 t ih =>
    intro i n hi hn
    cases t with
    | nil => simpa [chooseMAux] using hn
    | cons r2 rest =>
      simp only [chooseMAux]
      split
      · exact hi
      · exact ih (i + 1) n (by omega) hn

theorem chooseM_le (rs : List Nat) (C : Nat) : chooseM rs C ≤ rs.length :=
  chooseMAux_le C rs 1 rs.length (by omega)

theorem chooseM_pos (rs : List Nat) (C : Nat) (h : rs ≠ []) : 1 ≤ chooseM rs C := by
  apply chooseMAux_pos C rs 1 rs.length le_rfl
  cases rs with
  | nil => simp at h
  | cons a t => simp

theorem sum_range_flat (n q r : Nat) :
    ((List.range n).map (fun i => q + if i < r then 1 else 0)).sum = n * q + min r n := by
  induction n with
  | zero => simp
  | succ n ih =>
    rw [List.range_succ, List.map_append, List.sum_append, ih]
    simp only [List.map_cons, List.map_nil, List.sum_cons, List.sum_nil, Nat.succ_mul]
    by_cases h : n < r
    · have h1 : min r n = n := min_eq_right h.le
      have h2 : min r (n + 1) = n + 1 := min_eq_right (by omega)
      rw [if_pos h, h1, h2]
      omega
    · have h1 : min r n = r := min_eq_left (by omega)
      have h2 : min r (n + 1) = r := min_eq_left (by omega)
      rw [if_neg h, h1, h2]
      omega

theorem poolCAmounts_sum_eq (m C : Nat) (hm : 1 ≤ m) : (poolCAmounts m C).sum = C := by
  unfold poolCAmounts
  rw [sum_range_flat]
  have hlt : C % m < m := Nat.mod_lt C hm
  rw [min_eq_left hlt.le]
  exact Nat.div_add_mod C m

theorem poolCAmounts_sum_le (m C : Nat) : (poolCAmounts m C).sum ≤ C := by
  cases m with
  | zero => simp [poolCAmounts]
  | succ k => rw [poolCAmounts_sum_eq (k + 1) C (by omega)]

theorem poolCAmounts_length (m C : Nat) : (poolCAmounts m C).length = m := by
  simp [poolCAmounts]

theorem poolCFromWorkers_snd (workers : List (Addr × Nat)) (C : Nat) :
    (poolCFromWorkers workers C).map Prod.snd
      = poolCAmounts (chooseM (workers.map Prod.snd) C) C := by
  unfold poolCFromWorkers
  apply List.map_snd_zip
  have hm : chooseM (workers.map Prod.snd) C ≤ workers.length := by
    simpa using chooseM_le (workers.map Prod.snd) C
  simp [List.length_take, poolCAmounts]
  omega

theorem poolCFromWorkers_fst (workers : List (Addr × Nat)) (C : Nat) :
    (poolCFromWorkers workers C).map Prod.fst
      = (workers.take (chooseM (workers.map Prod.snd) C)).map Prod.fst := by
  unfold poolCFromWorkers
  apply List.map_fst_zip
  have hm : chooseM (workers.map Prod.snd) C ≤ workers.length := by
    simpa using chooseM_le (workers.map Prod.snd) C
  simp [List.length_take, poolCAmounts]

theorem mwCountLZBAux_eq (l : List Char) : mwCountLZBAux l = countLZBAux l := by
  induction l with
  | nil => rfl
  | cons c rest ih =>
    simp only [mwCountLZBAux, countLZBAux]
    cases hexDigitVal? c with
    | none => rfl
    | some v => simp [ih]

/-! ## Claim theorems -/

theorem adjustedOf_winner (W : Addr) (c T : Nat) :
    adjustedOf (some W) W c T
      = (max 0 (((c : Int) - min ((T : Int) - (c : Int)) ((T : Int) / 2)).fdiv 2)).toNat := by
  unfold adjustedOf
  rw [if_pos rfl]
  dsimp only
  rw [ite_neg_eq_max]

theorem adjustedOf_loser (W a : Addr) (c T : Nat) (h : a ≠ W) :
    adjustedOf (some W) a c T = c := by
  unfold adjustedOf
  rw [if_neg]
  simp [Ne.symm h]

/-- C1: in block finalization, each non-winner keeps its raw count as its
adjusted share; the winner `W` gets `max(0, ⌊(W_raw − penalty) / 2⌋)` with
`penalty = min(total − W_raw, ⌊total / 2⌋)`; addresses with adjusted share 0
are dropped; each remaining address receives
`⌊adjustedShare / totalAdjusted · A_micro⌋` from Pool A; and on the concrete
scenario (A_micro = 50e6, W_raw = 9, one loser with 1 share, the RNG picking
W) W's adjusted share is 4, the loser's 1, W gets 40 000 000 and the loser
10 000 000 micro-tokens. -/
theorem poolA_adjusted_shares_spec :
    (∀ (entries : List (Addr × Nat)) (W : Addr) (A : Nat),
      adjustedShares entries (some W)
        = (entries.map (fun p => (p.1,
            if p.1 = W then
              (max 0 (((p.2 : Int)
                - min ((totalSharesOf entries : Int) - (p.2 : Int))
                      ((totalSharesOf entries : Int) / 2)).fdiv 2)).toNat
            else p.2))).filter (fun p => 0 < p.2)
      ∧ poolARewards entries (some W) A
        = (adjustedShares entries (some W)).map
            (fun p => (p.1, p.2 * A / totalAdjusted entries (some W))))
    ∧ poolBWinner [("a", 9), ("b", 1)] 0 = some "a"
    ∧ adjustedShares [("a", 9), ("b", 1)] (some "a") = [("a", 4), ("b", 1)]
    ∧ poolARewards [("a", 9), ("b", 1)] (some "a") 50000000
        = [("a", 40000000), ("b", 10000000)] := by
  refine ⟨?_, by decide, by decide, by decide⟩
  intro entries W A
  constructor
  · unfold adjustedShares
    congr 1
    apply List.map_congr_left
    intro p _
    by_cases h : p.1 = W
    · rw [h, if_pos rfl, adjustedOf_winner]
    · rw [if_neg h, adjustedOf_loser W p.1 p.2 _ h]
  · rfl

/-- C2 counterexample: with Pool C budget 9 000 000 and three non-winners at
running rewards 0, 0 and 6 000 000, the loop breaks at i = 2 (since
0 + ⌈9e6/2⌉ = 4 500 000 < 6 000 000), so the chosen prefix size is 2, not 3,
and the grants are 4 500 000 each to the two lowest — not 3 000 000 to each
of the three. -/
theorem poolC_prefix_cex :
    chooseM ((List.insertionSort (fun x y => x.2 ≤ y.2)
        [("a", 0), ("b", 0), ("c", 6000000)]).map Prod.snd) 9000000 = 2
    ∧ ¬ chooseM ((List.insertionSort (fun x y => x.2 ≤ y.2)
        [("a", 0), ("b", 0), ("c", 6000000)]).map Prod.snd) 9000000 = 3
    ∧ poolCFromWorkers (List.insertionSort (fun x y => x.2 ≤ y.2)
        [(("a" : Addr), 0), ("b", 0), ("c", 6000000)]) 9000000
      = [("a", 4500000), ("b", 4500000)]
    ∧ ¬ (poolCFromWorkers (List.insertionSort (fun x y => x.2 ≤ y.2)
        [(("a" : Addr), 0), ("b", 0), ("c", 6000000)]) 9000000).lookup "c"
      = some 3000000 := by
  refine ⟨by decide, by decide, by decide, by decide⟩

/-- C2 as amended: with Pool C budget 9 000 000 and three non-winners at
running rewards 0, 0 and 6 000 000, the prefix size chosen is m = 2, the two
zero-reward addresses receive ⌊9e6/2⌋ = 4 500 000 each (remainder 0), and the
third address receives nothing from Pool C. -/
theorem poolC_prefix_amended :
    chooseM ((List.insertionSort (fun x y => x.2 ≤ y.2)
        [("a", 0), ("b", 0), ("c", 6000000)]).map Prod.snd) 9000000 = 2
    ∧ 9000000 % 2 = 0
    ∧ poolCFromWorkers (List.insertionSort (fun x y => x.2 ≤ y.2)
        [(("a" : Addr), 0), ("b", 0), ("c", 6000000)]) 9000000
      = [("a", 4500000), ("b", 4500000)]
    ∧ ((poolCFromWorkers (List.insertionSort (fun x y => x.2 ≤ y.2)
        [(("a" : Addr), 0), ("b", 0), ("c", 6000000)]) 9000000).map Prod.snd).sum
      = 9000000 := by
  refine ⟨by decide, by decide, by decide, by decide⟩

/-- C7: the server's `computePoWHash` (crypto-utils.js) and the browser
worker's `computePoWHash` (mining-worker.js) build the identical canonical
input string — lowercased address, decimal block number, seed hex and nonce
concatenated with no separators — and, for the same SHA-256 function over the
UTF-8 bytes of that input, produce the same hex digest and the same
leading-zero-bit count. -/
theorem server_worker_pow_agree :
    ∀ (sha : ByteArray → String) (address : String) (blockNumber : Nat)
      (seedHex nonce : String),
      cuCanonicalInput address blockNumber seedHex nonce
          = mwCanonicalInput address blockNumber seedHex nonce
      ∧ (cuComputePoWHash sha address blockNumber seedHex nonce).1
          = (mwComputePoWHash sha address blockNumber seedHex nonce).1
      ∧ (cuComputePoWHash sha address blockNumber seedHex nonce).2
          = (mwComputePoWHash sha address blockNumber seedHex nonce).2.1 := by
  intro sha address blockNumber seedHex nonce
  refine ⟨rfl, rfl, ?_⟩
  show countLeadingZeroBits _ = mwCountLeadingZeroBits _
  unfold countLeadingZeroBits mwCountLeadingZeroBits
  rw [mwCountLZBAux_eq]
  rfl

/-- C8 counterexample: on a tick whose finalization raises, the engine does
not advance — starting from block 5 with seed "seed" and start time 100, the
state after the failing tick still has block number 5 (not 6), the same seed
and the same start time. -/
theorem tick_error_cex :
    (processBlock ⟨5, "seed", 100, false⟩ true "fresh" 900).1.1
        = ⟨5, "seed", 100, false⟩
    ∧ ¬ (processBlock ⟨5, "seed", 100, false⟩ true "fresh" 900).1.1.currentBlockNumber = 6
    ∧ ¬ (processBlock ⟨5, "seed", 100, false⟩ true "fresh" 900).1.1.currentSeedHex = "fresh"
    ∧ ¬ (processBlock ⟨5, "seed", 100, false⟩ true "fresh" 900).1.1.blockStartTime = 900 := by
  refine ⟨by decide, by decide, by decide, by decide⟩

/-- C8 as amended: if `finalizeBlock` raises during a tick (with no closure
already in progress), the engine does not advance: the block number, the seed
and the block start time are unchanged and only `isProcessing` is cleared;
the `finally` clause still reschedules the next tick, and that next tick
attempts the very same block number again (the failed block is retried, not
skipped). -/
theorem tick_error_no_advance (e : Engine) (s s' : String) (now now' : Nat) (b : Bool)
    (h : e.isProcessing = false) :
    processBlock e true s now
        = (({ e with isProcessing := false }, true), .failed e.currentBlockNumber)
    ∧ (processBlock { e with isProcessing := false } b s' now').2 ≠ TickResult.skipped
    ∧ ((processBlock { e with isProcessing := false } b s' now').2
          = .failed e.currentBlockNumber
        ∨ (processBlock { e with isProcessing := false } b s' now').2
          = .advanced e.currentBlockNumber) := by
  unfold processBlock
  refine ⟨by simp [h], ?_, ?_⟩
  · cases b <;> simp
  · cases b <;> simp

/-- C8 amended witness at a concrete engine state. -/
theorem tick_error_no_advance_witness :
    processBlock ⟨5, "seed", 100, false⟩ true "fresh" 900
        = ((⟨5, "seed", 100, false⟩, true), .failed 5)
    ∧ (processBlock ⟨5, "seed", 100, false⟩ true "other" 1300).2 ≠ TickResult.skipped := by
  have h := tick_error_no_advance ⟨5, "seed", 100, false⟩ "fresh" "other" 900 1300 true rfl
  exact ⟨h.1, h.2.1⟩

set_option maxRecDepth 4000 in
/-- C9 counterexample: a 257-character nonce — longer than the claimed
256-character cap — passes the whole validation chain of /submit-proof (the
result is `none`, not 400 Invalid nonce format): the code has no length cap. -/
theorem nonce_cap_cex :
    validateSubmitV2 (.str addrY) (.num 1) (.str longNonce) 1 = none
    ∧ 256 < longNonce.length := by
  refine ⟨by decide, by decide⟩

/-- C9 as amended: the second /submit-proof version returns 400
`Invalid nonce format` exactly when the three fields are present (truthy),
the address and block number checks pass, and the nonce is not a string; a
nonce that is a non-empty string of any length — there is no length cap —
passes this validation step. -/
theorem nonce_format_check (address blockNumber nonce : JVal) (currentBlock : Nat) :
    (validateSubmitV2 address blockNumber nonce currentBlock = some .invalidNonceFormat
      ↔ (truthy address ∧ truthy blockNumber ∧ truthy nonce
          ∧ isValidAddressJ address ∧ blockNumber = .num (currentBlock : ℚ)
          ∧ ¬ ∃ s, nonce = .str s))
    ∧ (∀ s : String, ¬ s = "" → truthy address → truthy blockNumber →
        isValidAddressJ address → blockNumber = .num (currentBlock : ℚ) →
        validateSubmitV2 address blockNumber (.str s) currentBlock = none) := by
  constructor
  · unfold validateSubmitV2
    by_cases h1 : ¬ truthy address ∨ ¬ truthy blockNumber ∨ ¬ truthy nonce
    · rw [if_pos h1]
      constructor
      · intro hc; exact absurd hc (by decide)
      · rintro ⟨ha, hb, hn, -⟩
        rcases h1 with h | h | h
        · exact absurd ha h
        · exact absurd hb h
        · exact absurd hn h
    · rw [if_neg h1]
      push_neg at h1
      obtain ⟨ha, hb, hn⟩ := h1
      by_cases h2 : isValidAddressJ address
      · rw [if_neg (not_not_intro h2)]
        by_cases h3 : blockNumber = JVal.num (currentBlock : ℚ)
        · rw [if_neg (not_not_intro h3)]
          cases nonce with
          | str s =>
            have hs : ¬ s = "" := by simpa [truthy] using hn
            rw [if_neg (by simpa [nonceFormatBad] using hs)]
            constructor
            · intro hc; exact absurd hc (by decide)
            · rintro ⟨-, -, -, -, -, hns⟩
              exact absurd ⟨s, rfl⟩ hns
          | num q =>
            rw [if_pos (show nonceFormatBad (JVal.num q) = true from rfl)]
            constructor
            · intro _
              exact ⟨ha, hb, hn, h2, h3, by rintro ⟨s, hcon⟩; cases hcon⟩
            · intro _; rfl
          | boolean bb =>
            rw [if_pos (show nonceFormatBad (JVal.boolean bb) = true from rfl)]
            constructor
            · intro _
              exact ⟨ha, hb, hn, h2, h3, by rintro ⟨s, hcon⟩; cases hcon⟩
            · intro _; rfl
          | null => exact absurd hn (by decide)
        · rw [if_pos h3]
          constructor
          · intro hc; exact absurd hc (by decide)
          · rintro ⟨-, -, -, -, hbn, -⟩
            exact absurd hbn h3
      · rw [if_pos h2]
        constructor
        · intro hc; exact absurd hc (by decide)
        · rintro ⟨-, -, -, hv, -⟩
          exact absurd hv h2
  · intro s hs ha hbt hv hb
    unfold validateSubmitV2
    have hA : ¬ (¬ truthy address ∨ ¬ truthy blockNumber ∨ ¬ truthy (JVal.str s)) := by
      push_neg
      exact ⟨ha, hbt, by simpa [truthy] using hs⟩
    rw [if_neg hA, if_neg (not_not_intro hv), if_neg (not_not_intro hb),
        if_neg (by simpa [nonceFormatBad] using hs)]

/-- C9 amended witness: a concrete non-empty string nonce passes validation. -/
theorem nonce_format_check_witness :
    validateSubmitV2 (.str addrY) (.num 3) (.str "abc") 3 = none :=
  (nonce_format_check (.str addrY) (.num 3) (.str "abc") 3).2 "abc"
    (by decide) (by decide) (by decide) (by decide) (by decide)

theorem sum_map_zero {α : Type} (l : List α) : (l.map (fun _ => (0 : Nat))).sum = 0 := by
  induction l with
  | nil => rfl
  | cons a t ih => simp [ih]

theorem poolARewards_keys (entries : List (Addr × Nat)) (w : Option Addr) (A : Nat) :
    (poolARewards entries w A).map Prod.fst = (adjustedShares entries w).map Prod.fst := by
  unfold poolARewards
  rw [List.map_map]
  rfl

theorem adjustedShares_keys_sublist (entries : List (Addr × Nat)) (w : Option Addr) :
    List.Sublist ((adjustedShares entries w).map Prod.fst) (entries.map Prod.fst) := by
  unfold adjustedShares
  have h2 := (List.filter_sublist
    (l := entries.map (fun p => (p.1, adjustedOf w p.1 p.2 (totalSharesOf entries))))
    (p := fun p => 0 < p.2)).map Prod.fst
  rw [List.map_map] at h2
  exact h2

theorem candidates_map_fst (entries : List (Addr × Nat)) (w : Option Addr) (A B : Nat) :
    ((poolCCandidates entries w).map
        (fun a => (a, runningReward entries w A B a))).map Prod.fst
      = poolCCandidates entries w := by
  rw [List.map_map]
  exact List.map_id _

theorem sortedWorkers_fst_perm (entries : List (Addr × Nat)) (w : Option Addr) (A B : Nat) :
    List.Perm ((sortedWorkers entries w A B).map Prod.fst) (poolCCandidates entries w) := by
  unfold sortedWorkers
  have h := (List.perm_insertionSort (fun x y : Addr × Nat => x.2 ≤ y.2)
    ((poolCCandidates entries w).map (fun a => (a, runningReward entries w A B a)))).map Prod.fst
  rw [candidates_map_fst] at h
  exact h

/-- C3: for every map of raw share counts with pairwise-distinct addresses and
every RNG outcome, the total distributed by the three-pool calculation is at
most `A_micro + B_micro + C_micro`. -/
theorem rewards_total_bounded (entries : List (Addr × Nat)) (r A B C : Nat)
    (hnd : (entries.map Prod.fst).Nodup) :
    totalDistributed entries r A B C ≤ A + B + C := by
  unfold totalDistributed rewardOf
  generalize hw : poolBWinner entries r = w
  have hsplit : ((entries.map Prod.fst).map (fun a =>
        (if w = some a then B else 0) + poolAPart entries w A a
          + poolCPart entries w A B C a)).sum
      = ((entries.map Prod.fst).map (fun a =>
            (if w = some a then B else 0) + poolAPart entries w A a)).sum
        + ((entries.map Prod.fst).map (fun a => poolCPart entries w A B C a)).sum := by
    rw [← sum_map_add_distrib]
  have hsplit2 : ((entries.map Prod.fst).map (fun a =>
        (if w = some a then B else 0) + poolAPart entries w A a)).sum
      = ((entries.map Prod.fst).map (fun a => if w = some a then B else 0)).sum
        + ((entries.map Prod.fst).map (fun a => poolAPart entries w A a)).sum := by
    rw [← sum_map_add_distrib]
  rw [hsplit, hsplit2]
  have hB : ((entries.map Prod.fst).map (fun a => if w = some a then B else 0)).sum ≤ B := by
    cases w with
    | none =>
      have hz : ((entries.map Prod.fst).map
            (fun a => if (none : Option Addr) = some a then B else 0))
          = (entries.map Prod.fst).map (fun _ => 0) :=
        List.map_congr_left (fun a _ => by simp)
      rw [hz, sum_map_zero]
      omega
    | some x =>
      have hcongr : ((entries.map Prod.fst).map (fun a => if some x = some a then B else 0))
          = (entries.map Prod.fst).map (fun a => if x = a then B else 0) :=
        List.map_congr_left (fun a _ => by simp)
      rw [hcongr, sum_map_ite_eq_of_nodup _ x B hnd]
      split <;> omega
  have hA : ((entries.map Prod.fst).map (fun a => poolAPart entries w A a)).sum ≤ A := by
    have hknd : ((poolARewards entries w A).map Prod.fst).Nodup := by
      rw [poolARewards_keys]
      exact List.Nodup.sublist (adjustedShares_keys_sublist entries w) hnd
    have hmem : ∀ p ∈ poolARewards entries w A, p.1 ∈ entries.map Prod.fst := by
      intro p hp
      have h1 : p.1 ∈ (poolARewards entries w A).map Prod.fst := List.mem_map_of_mem _ hp
      rw [poolARewards_keys] at h1
      exact (adjustedShares_keys_sublist entries w).subset h1
    have heq : ((entries.map Prod.fst).map (fun a => poolAPart entries w A a)).sum
        = ((poolARewards entries w A).map Prod.snd).sum := by
      have hview : ((entries.map Prod.fst).map (fun a => poolAPart entries w A a))
          = (entries.map Prod.fst).map (fun a =>
              match (poolARewards entries w A).lookup a with
              | some v => v
              | none => 0) := rfl
      rw [hview]
      exact sum_map_lookup _ _ hnd hknd hmem
    rw [heq]
    have hvals : ((poolARewards entries w A).map Prod.snd)
        = ((adjustedShares entries w).map Prod.snd).map
            (fun v => v * A / ((adjustedShares entries w).map Prod.snd).sum) := by
      unfold poolARewards totalAdjusted
      rw [List.map_map, List.map_map]
      rfl
    rw [hvals]
    exact sum_div_le _ A
  have hC : ((entries.map Prod.fst).map (fun a => poolCPart entries w A B C a)).sum ≤ C := by
    have hcnd : (poolCCandidates entries w).Nodup := by
      unfold poolCCandidates
      exact List.Nodup.filter _ hnd
    have hsnd : ((sortedWorkers entries w A B).map Prod.fst).Nodup :=
      (sortedWorkers_fst_perm entries w A B).nodup_iff.mpr hcnd
    have hkeys : (poolCGrantsOf entries w A B C).map Prod.fst
        = ((sortedWorkers entries w A B).map Prod.fst).take
            (chooseM ((sortedWorkers entries w A B).map Prod.snd) C) := by
      unfold poolCGrantsOf
      rw [poolCFromWorkers_fst]
      rw [List.map_take]
    have hknd : ((poolCGrantsOf entries w A B C).map Prod.fst).Nodup := by
      rw [hkeys]
      exact List.Nodup.sublist (List.take_sublist _ _) hsnd
    have hmem : ∀ p ∈ poolCGrantsOf entries w A B C, p.1 ∈ entries.map Prod.fst := by
      intro p hp
      have h1 : p.1 ∈ (poolCGrantsOf entries w A B C).map Prod.fst :=
        List.mem_map_of_mem _ hp
      rw [hkeys] at h1
      have h2 : p.1 ∈ (sortedWorkers entries w A B).map Prod.fst :=
        (List.take_sublist _ _).subset h1
      have h3 : p.1 ∈ poolCCandidates entries w :=
        (sortedWorkers_fst_perm entries w A B).subset h2
      exact List.mem_of_mem_filter h3
    have heq : ((entries.map Prod.fst).map (fun a => poolCPart entries w A B C a)).sum
        = ((poolCGrantsOf entries w A B C).map Prod.snd).sum := by
      have hview : ((entries.map Prod.fst).map (fun a => poolCPart entries w A B C a))
          = (entries.map Prod.fst).map (fun a =>
              match (poolCGrantsOf entries w A B C).lookup a with
              | some v => v
              | none => 0) := rfl
      rw [hview]
      exact sum_map_lookup _ _ hnd hknd hmem
    rw [heq]
    unfold poolCGrantsOf
    rw [poolCFromWorkers_snd]
    exact poolCAmounts_sum_le _ C
  omega

/-- C3 witness at a concrete share map and RNG outcome. -/
theorem rewards_total_bounded_witness :
    totalDistributed [("a", 9), ("b", 1)] 0 50000000 50000000 9000000
      ≤ 50000000 + 50000000 + 9000000 :=
  rewards_total_bounded [("a", 9), ("b", 1)] 0 50000000 50000000 9000000 (by decide)

/-- C10: whenever there is at least one non-winner address, Pool C spends its
budget exactly: the chosen prefix size `m` is at least 1, the recipients are
the `m` lowest-earning non-winners (the first `m` of the ascending stable sort
by running reward), recipient `i` gets `⌊C_micro / m⌋` plus one extra
micro-token while `i < C_micro mod m`, and the grants sum to exactly
`C_micro` — no Pool C tokens are burned. -/
theorem poolC_spends_budget (entries : List (Addr × Nat)) (r A B C : Nat)
    (hne : poolCCandidates entries (poolBWinner entries r) ≠ []) :
    1 ≤ chooseM ((sortedWorkers entries (poolBWinner entries r) A B).map Prod.snd) C
    ∧ (poolCGrantsOf entries (poolBWinner entries r) A B C).map Prod.fst
        = ((sortedWorkers entries (poolBWinner entries r) A B).take
            (chooseM ((sortedWorkers entries (poolBWinner entries r) A B).map Prod.snd) C)).map
              Prod.fst
    ∧ (poolCGrantsOf entries (poolBWinner entries r) A B C).map Prod.snd
        = (List.range
            (chooseM ((sortedWorkers entries (poolBWinner entries r) A B).map Prod.snd) C)).map
            (fun i => C / chooseM ((sortedWorkers entries (poolBWinner entries r) A B).map
                Prod.snd) C
              + if i < C % chooseM ((sortedWorkers entries (poolBWinner entries r) A B).map
                  Prod.snd) C then 1 else 0)
    ∧ ((poolCGrantsOf entries (poolBWinner entries r) A B C).map Prod.snd).sum = C
    ∧ List.Sorted (fun x y => x.2 ≤ y.2)
        (sortedWorkers entries (poolBWinner entries r) A B) := by
  have hlen : (sortedWorkers entries (poolBWinner entries r) A B).length
      = (poolCCandidates entries (poolBWinner entries r)).length := by
    unfold sortedWorkers
    rw [(List.perm_insertionSort _ _).length_eq, List.length_map]
  have hwne : ((sortedWorkers entries (poolBWinner entries r) A B).map Prod.snd) ≠ [] := by
    intro hcon
    have h0 : (sortedWorkers entries (poolBWinner entries r) A B).length = 0 := by
      have := congrArg List.length hcon
      simpa using this
    rw [hlen] at h0
    exact hne (List.length_eq_zero.mp h0)
  have hm1 : 1 ≤ chooseM ((sortedWorkers entries (poolBWinner entries r) A B).map Prod.snd) C :=
    chooseM_pos _ C hwne
  refine ⟨hm1, ?_, ?_, ?_, ?_⟩
  · unfold poolCGrantsOf
    rw [poolCFromWorkers_fst]
  · unfold poolCGrantsOf
    rw [poolCFromWorkers_snd]
    rfl
  · unfold poolCGrantsOf
    rw [poolCFromWorkers_snd]
    exact poolCAmounts_sum_eq _ C hm1
  · unfold sortedWorkers
    haveI hT : IsTotal (Addr × Nat) (fun x y => x.2 ≤ y.2) := ⟨fun a b => le_total a.2 b.2⟩
    haveI hR : IsTrans (Addr × Nat) (fun x y => x.2 ≤ y.2) :=
      ⟨fun a b c hab hbc => le_trans hab hbc⟩
    exact List.sorted_insertionSort _ _

/-- C10 witness at a concrete share map with one non-winner. -/
theorem poolC_spends_budget_witness :
    ((poolCGrantsOf [("a", 9), ("b", 1)] (poolBWinner [("a", 9), ("b", 1)] 0) 1 2 9).map
        Prod.snd).sum = 9 :=
  (poolC_spends_budget [("a", 9), ("b", 1)] 0 1 2 9 (by decide)).2.2.2.1

theorem hexDigitVal?_lt (c : Char) (v : Nat) (h : hexDigitVal? c = some v) : v < 16 := by
  unfold hexDigitVal? at h
  split at h <;>
    first
      | (rw [Option.some.injEq] at h; omega)
      | exact Option.noConfusion h

theorem countLZBAux_spec (l : List Char) (h : ∀ c ∈ l, isHexChar c) :
    countLZBAux l
      = (((l.map (fun c => hexBits ((hexDigitVal? c).getD 0))).flatten).takeWhile
          (fun b => ! b)).length := by
  induction l with
  | nil => simp [countLZBAux]
  | cons c t ih =>
    have hc : isHexChar c := h c (List.mem_cons_self _ _)
    obtain ⟨v, hv⟩ := Option.isSome_iff_exists.mp hc
    have hv16 : v < 16 := hexDigitVal?_lt c v hv
    have ht : ∀ x ∈ t, isHexChar x := fun x hx => h x (List.mem_cons_of_mem _ hx)
    simp only [List.map_cons, List.flatten_cons, countLZBAux, hv, Option.getD_some]
    by_cases hz : v = 0
    · subst hz
      rw [if_pos rfl, ih ht]
      rw [show hexBits 0 = [false, false, false, false] from rfl]
      simp [List.takeWhile_cons]
      omega
    · rw [if_neg hz]
      have hv1 : 1 ≤ v := Nat.pos_of_ne_zero hz
      interval_cases v <;>
        simp [hexBits, List.takeWhile_cons, List.cons_append]

/-- C6: `countLeadingZeroBits` computes, for every hex digest string, the
number of leading zero bits of the digest read as a big-endian bit string;
whenever a /submit-proof request reaches the difficulty check, it fails with
`Insufficient proof-of-work` exactly when that count for the computed hash is
below `DIFFICULTY_BITS`; and every accepted share satisfies
`leading_zero_bits(sha256(canonical)) ≥ DIFFICULTY_BITS`. -/
theorem pow_difficulty_gate :
    (∀ s : String, (∀ c ∈ s.data, isHexChar c) →
        countLeadingZeroBits s = specLeadingZeroBits s)
    ∧ (∀ (D MAX : Nat) (sha : ByteArray → String) (rows : List ShareRow)
        (blk : Nat) (seed addr nonce : String),
        ¬ (addr = "" ∨ nonce = "") → isValidAddress addr →
        getShareCountForAddress rows blk addr < MAX →
        ((∃ rq pv, (submitProof D MAX sha rows blk seed addr nonce).1
            = .insufficientPoW rq pv)
          ↔ (cuComputePoWHash sha addr blk seed nonce).2 < D))
    ∧ (∀ (D MAX : Nat) (sha : ByteArray → String) (rows : List ShareRow)
        (blk : Nat) (seed addr nonce : String) (b l : Nat) (hs : String)
        (rows' : List ShareRow),
        submitProof D MAX sha rows blk seed addr nonce = (.accepted b l hs, rows') →
        D ≤ countLeadingZeroBits
          (sha (String.toUTF8 (cuCanonicalInput addr blk seed nonce)))) := by
  refine ⟨?_, ?_, ?_⟩
  · intro s hhex
    unfold countLeadingZeroBits specLeadingZeroBits digestBits
    exact countLZBAux_spec s.data hhex
  · intro D MAX sha rows blk seed addr nonce hpres hval hq
    unfold submitProof
    rw [if_neg hpres, if_neg (not_not_intro hval), if_neg (not_le.mpr hq)]
    by_cases hlt : (cuComputePoWHash sha addr blk seed nonce).2 < D
    · rw [if_pos hlt]
      constructor
      · intro _
        exact hlt
      · intro _
        exact ⟨D, (cuComputePoWHash sha addr blk seed nonce).2, rfl⟩
    · rw [if_neg hlt]
      constructor
      · rintro ⟨rq, pv, hres⟩
        cases hins : insertShare rows blk addr nonce
            (cuComputePoWHash sha addr blk seed nonce).1 with
        | none => rw [hins] at hres; exact absurd hres (by simp)
        | some rows2 => rw [hins] at hres; exact absurd hres (by simp)
      · intro hcon
        exact absurd hcon hlt
  · intro D MAX sha rows blk seed addr nonce b l hs rows' hacc
    unfold submitProof at hacc
    split_ifs at hacc with h1 h2 h3 h4
    any_goals simp at hacc
    cases hins : insertShare rows blk addr nonce
        (cuComputePoWHash sha addr blk seed nonce).1 with
    | none => rw [hins] at hacc; simp at hacc
    | some rows2 => exact not_lt.mp h4

/-- C6 witness: the spec equality on a concrete digest and the gate
equivalence on a concrete request. -/
theorem pow_difficulty_gate_witness :
    countLeadingZeroBits "00ff" = specLeadingZeroBits "00ff"
    ∧ ((∃ rq pv, (submitProof 20 500 (fun _ => "00ff") [] 3 "seed" addrY "w").1
          = .insufficientPoW rq pv)
        ↔ (cuComputePoWHash (fun _ => "00ff") addrY 3 "seed" "w").2 < 20) :=
  ⟨pow_difficulty_gate.1 "00ff" (by decide),
   pow_difficulty_gate.2.1 20 500 (fun _ => "00ff") [] 3 "seed" addrY "w"
     (by decide) (by decide) (by decide)⟩

/-- C4: the shares table's (block, address, nonce) uniqueness is preserved by
every insert (at most one row ever exists per triple); and after an accepted
first submission from a fresh address, a second submission of the same
(address, nonce) against the same block is answered 409 `Duplicate share`,
leaves the shares table exactly as it was after the first submission (so the
balance after the block closes is the same as if the second submission had
never been made), and the share count for that address in that block stays 1. -/
theorem duplicate_share_rejected (D MAX : Nat) (sha : ByteArray → String)
    (rows : List ShareRow) (blk : Nat) (seed addr nonce : String)
    (hMAX : 2 ≤ MAX) (h0 : getShareCountForAddress rows blk addr = 0)
    (b l : Nat) (hs : String) (rows₁ : List ShareRow)
    (hacc : submitProof D MAX sha rows blk seed addr nonce = (.accepted b l hs, rows₁)) :
    submitProof D MAX sha rows₁ blk seed addr nonce = (.duplicateShare, rows₁)
    ∧ getShareCountForAddress rows₁ blk addr = 1
    ∧ (∀ (rows₀ : List ShareRow) (b₀ : Nat) (a₀ n₀ h₀ : String),
        uniqueTriples rows₀ →
        ∀ rows₀', insertShare rows₀ b₀ a₀ n₀ h₀ = some rows₀' → uniqueTriples rows₀') := by
  have hinv : ∀ (rows₀ : List ShareRow) (b₀ : Nat) (a₀ n₀ h₀ : String),
      uniqueTriples rows₀ →
      ∀ rows₀', insertShare rows₀ b₀ a₀ n₀ h₀ = some rows₀' → uniqueTriples rows₀' := by
    intro rows₀ b₀ a₀ n₀ h₀ huniq rows₀' hins
    unfold insertShare at hins
    split_ifs at hins with hdup
    rw [Option.some.injEq] at hins
    subst hins
    have hnotmem : (b₀, a₀, n₀) ∉ rows₀.map shareKey := by
      intro hmem
      rw [List.mem_map] at hmem
      obtain ⟨s, hsmem, hskey⟩ := hmem
      apply hdup
      rw [List.any_eq_true]
      refine ⟨s, hsmem, ?_⟩
      unfold shareKey at hskey
      rw [Prod.mk.injEq, Prod.mk.injEq] at hskey
      simp only [decide_eq_true_eq]
      exact ⟨hskey.1, hskey.2.1, hskey.2.2⟩
    unfold uniqueTriples at huniq ⊢
    rw [List.map_append]
    rw [List.nodup_append]
    refine ⟨huniq, by simp, ?_⟩
    intro k hk
    simp only [List.map_cons, List.map_nil, List.mem_cons, List.not_mem_nil, or_false]
    intro hkeq
    have hkey : k = (b₀, a₀, n₀) := hkeq
    exact absurd (hkey ▸ hk) hnotmem
  unfold submitProof at hacc
  split_ifs at hacc with h1 h2 h3 h4
  any_goals simp at hacc
  cases hins : insertShare rows blk addr nonce
      (cuComputePoWHash sha addr blk seed nonce).1 with
  | none => rw [hins] at hacc; simp at hacc
  | some rows2 =>
    rw [hins] at hacc
    rw [Prod.mk.injEq] at hacc
    obtain ⟨hres, hrows⟩ := hacc
    subst hrows
    unfold insertShare at hins
    split_ifs at hins with hdup
    rw [Option.some.injEq] at hins
    subst hins
    have hcount : getShareCountForAddress
        (rows ++ [⟨blk, addr, nonce, (cuComputePoWHash sha addr blk seed nonce).1⟩]) blk addr
        = 1 := by
      unfold getShareCountForAddress at h0 ⊢
      rw [List.filter_append, List.length_append, h0]
      simp
    refine ⟨?_, hcount, hinv⟩
    unfold submitProof
    rw [if_neg h1, if_neg (not_not_intro h2), hcount, if_neg (by omega)]
    rw [if_neg h4]
    have hdup2 : ((rows ++ [(⟨blk, addr, nonce,
          (cuComputePoWHash sha addr blk seed nonce).1⟩ : ShareRow)]).any
        (fun s => decide (s.block = blk ∧ s.address = addr ∧ s.nonce = nonce))) = true := by
      rw [List.any_append]
      simp
    have hins2 : insertShare
        (rows ++ [⟨blk, addr, nonce, (cuComputePoWHash sha addr blk seed nonce).1⟩])
        blk addr nonce (cuComputePoWHash sha addr blk seed nonce).1 = none := by
      unfold insertShare
      rw [if_pos hdup2]
    rw [hins2]

/-- C4 witness: a concrete accepted share followed by its duplicate. -/
theorem duplicate_share_rejected_witness :
    submitProof 0 500 (fun _ => "hh") [⟨7, addrY, "n1", "hh"⟩] 7 "s" addrY "n1"
      = (.duplicateShare, [⟨7, addrY, "n1", "hh"⟩])
    ∧ getShareCountForAddress [⟨7, addrY, "n1", "hh"⟩] 7 addrY = 1 := by
  have h := duplicate_share_rejected 0 500 (fun _ => "hh") [] 7 "s" addrY "n1"
    (by omega) (by decide) 7 0 "hh" [⟨7, addrY, "n1", "hh"⟩] (by decide)
  exact ⟨h.1, h.2.1⟩

/-- C5 counterexample: the handler never checks that `amountMicro` is an
integer — the non-integer request 2 000 000 000.5 against a 3 000 000 000
balance is queued, not rejected with 400; and the payout row is created with
the gross `amountMicro` as its amount (2 000 000 000), not the net
`amountMicro − fee` (1 000 000 000) the claim describes. -/
theorem withdraw_validation_cex :
    (∃ pid net fee, (withdrawRequest 1000000000 wst0 addrY (4000000001/2)).1
        = .queued pid net fee)
    ∧ (¬ ∃ k : ℤ, ((4000000001 : ℚ)/2) = (k : ℚ))
    ∧ ((withdrawRequest 1000000000 wst0 addrY 2000000000).2.payouts
        = [⟨0, addrY, 2000000000, 1000000000, "pending"⟩])
    ∧ ((2000000000 : ℚ) ≠ 2000000000 - 1000000000) := by
  have haddr : ¬ ((addrY = "") ∨ ¬ isValidAddress addrY) := by decide
  refine ⟨⟨0, 4000000001/2 - 1000000000, 1000000000, ?_⟩, ?_, ?_, by norm_num⟩
  · unfold withdrawRequest
    rw [if_neg haddr, if_neg (by norm_num), if_neg (by norm_num),
        if_neg (show ¬ (getBalance wst0 addrY < 4000000001/2) by norm_num [getBalance, wst0])]
    have hded : deductBalance wst0 addrY (4000000001/2)
        = some { wst0 with
            balances := fun a => if a = addrY then wst0.balances a - 4000000001/2
              else wst0.balances a } := by
      unfold deductBalance
      rw [if_neg (show ¬ (getBalance wst0 addrY < 4000000001/2) by norm_num [getBalance, wst0])]
    rw [hded]
    rfl
  · rintro ⟨k, hk⟩
    rw [div_eq_iff (by norm_num : (2 : ℚ) ≠ 0)] at hk
    have hk2 : (4000000001 : ℤ) = k * 2 := by exact_mod_cast hk
    omega
  · unfold withdrawRequest
    rw [if_neg haddr, if_neg (by norm_num), if_neg (by norm_num),
        if_neg (show ¬ (getBalance wst0 addrY < 2000000000) by norm_num [getBalance, wst0])]
    have hded : deductBalance wst0 addrY 2000000000
        = some { wst0 with
            balances := fun a => if a = addrY then wst0.balances a - 2000000000
              else wst0.balances a } := by
      unfold deductBalance
      rw [if_neg (show ¬ (getBalance wst0 addrY < 2000000000) by norm_num [getBalance, wst0])]
    rw [hded]
    rfl

theorem withdraw_success_eq (FEE : ℚ) (st : WState) (address : String) (q : ℚ)
    (hv : isValidAddress address) (h0 : 0 < q) (hf : FEE < q)
    (hb : q ≤ getBalance st address) :
    withdrawRequest FEE st address q
      = (.queued st.nextId (q - FEE) FEE,
         { balances := fun a => if a = address then st.balances a - q
             else st.balances a,
           payouts := st.payouts ++ [⟨st.nextId, address, q, FEE, "pending"⟩],
           nextId := st.nextId + 1 }) := by
  have haddr : ¬ (address = "" ∨ ¬ isValidAddress address) := by
    push_neg
    refine ⟨?_, hv⟩
    intro hcon
    subst hcon
    exact absurd hv (by decide)
  have h2 : ¬ (q = 0 ∨ q ≤ 0) := by
    rintro (h | h)
    · exact absurd h (ne_of_gt h0)
    · exact absurd h (not_le.mpr h0)
  have h4 : ¬ (getBalance st address < q) := not_lt.mpr hb
  unfold withdrawRequest
  rw [if_neg haddr, if_neg h2, if_neg (not_le.mpr hf), if_neg h4]
  have hded : deductBalance st address q
      = some { st with
          balances := fun a => if a = address then st.balances a - q
            else st.balances a } := by
    unfold deductBalance
    rw [if_neg h4]
  rw [hded]
  rfl

/-- C5 as amended: POST /withdraw-request responds `queued` exactly when the
address is well-formed, `amountMicro` is a positive number (integrality is
not checked: any positive rational passes), `amountMicro` exceeds the fee and
the balance covers `amountMicro`; on success it debits exactly `amountMicro`
from the balance and appends a pending payout carrying the gross
`amountMicro` and the fee, while the response reports
`netAmount = amountMicro − fee` and the fee.  Concretely: with balance
3 000 000 000, fee 1 000 000 000 and amountMicro 2 000 000 000 the response
is queued with netAmount 1 000 000 000 and fee 1 000 000 000, the balance
afterwards is 1 000 000 000, and a second identical request is answered with
400 `Insufficient balance`. -/
theorem withdraw_request_behavior (FEE : ℚ) (st : WState) (address : String) (q : ℚ) :
    ((∃ pid net fee, (withdrawRequest FEE st address q).1 = .queued pid net fee)
      ↔ (isValidAddress address ∧ 0 < q ∧ FEE < q ∧ q ≤ getBalance st address))
    ∧ (isValidAddress address → 0 < q → FEE < q → q ≤ getBalance st address →
        withdrawRequest FEE st address q
          = (.queued st.nextId (q - FEE) FEE,
             { balances := fun a => if a = address then st.balances a - q
                 else st.balances a,
               payouts := st.payouts ++ [⟨st.nextId, address, q, FEE, "pending"⟩],
               nextId := st.nextId + 1 }))
    ∧ ((withdrawRequest 1000000000 wst0 addrY 2000000000).1
        = .queued 0 1000000000 1000000000)
    ∧ (getBalance (withdrawRequest 1000000000 wst0 addrY 2000000000).2 addrY
        = 1000000000)
    ∧ ((withdrawRequest 1000000000
          (withdrawRequest 1000000000 wst0 addrY 2000000000).2 addrY 2000000000).1
        = .insufficientBalance 1000000000 2000000000) := by
  have hstep := withdraw_success_eq 1000000000 wst0 addrY 2000000000 (by decide)
    (by norm_num) (by norm_num) (by norm_num [getBalance, wst0])
  have hbal : getBalance (withdrawRequest 1000000000 wst0 addrY 2000000000).2 addrY
      = 1000000000 := by
    rw [hstep]
    show (if addrY = addrY then wst0.balances addrY - 2000000000 else wst0.balances addrY)
        = 1000000000
    rw [if_pos rfl]
    show (3000000000 : ℚ) - 2000000000 = 1000000000
    norm_num
  refine ⟨⟨?_, ?_⟩, withdraw_success_eq FEE st address q, ?_, hbal, ?_⟩
  · rintro ⟨pid, net, fee, hres⟩
    unfold withdrawRequest at hres
    split_ifs at hres with ha hq hfe hba
    any_goals simp at hres
    push_neg at ha hq
    exact ⟨ha.2, hq.2, not_le.mp hfe, not_lt.mp hba⟩
  · rintro ⟨hv, h0, hf, hb⟩
    rw [withdraw_success_eq FEE st address q hv h0 hf hb]
    exact ⟨st.nextId, q - FEE, FEE, rfl⟩
  · rw [hstep]
    show WithdrawResult.queued 0 (2000000000 - 1000000000) 1000000000 = _
    norm_num
  · rw [show (withdrawRequest 1000000000 wst0 addrY 2000000000).2
        = { balances := fun a => if a = addrY then wst0.balances a - 2000000000
              else wst0.balances a,
            payouts := wst0.payouts
              ++ [⟨wst0.nextId, addrY, 2000000000, 1000000000, "pending"⟩],
            nextId := wst0.nextId + 1 } from by rw [hstep]] at hbal ⊢
    have hcond := hbal.trans_lt (show (1000000000 : ℚ) < 2000000000 by norm_num)
    unfold withdrawRequest
    rw [if_neg (by decide), if_neg (by norm_num), if_neg (by norm_num), if_pos hcond]
    simp [hbal]

/-- C5 amended witness at a concrete valid request. -/
theorem withdraw_request_behavior_witness :
    withdrawRequest 10 wst0 addrY 100
      = (.queued 0 (100 - 10) 10,
         { balances := fun a => if a = addrY then wst0.balances a - 100 else wst0.balances a,
           payouts := wst0.payouts ++ [⟨0, addrY, 100, 10, "pending"⟩],
           nextId := 0 + 1 }) :=
  (withdraw_request_behavior 10 wst0 addrY 100).2.1 (by decide) (by norm_num)
    (by norm_num) (by norm_num [getBalance, wst0])
